import Mathlib

/-!
Verification of the JSON-RPC transport in `src/essrpc/src/transports/json.rs`.

The development shallowly embeds the transport:

* `JValue` models `serde_json::value::Value`.  Numbers are modelled as
  integers only (the transport itself never constructs fractional numbers;
  floating point is outside the embedding).  Objects are stored the way
  `serde_json`'s default `Map` (a `BTreeMap`) stores them: as association
  lists sorted strictly by key, maintained by `mapInsert`, which replaces
  the value when the key is already present.  Keys are compared the way
  Rust compares `String`s: lexicographically by scalar value, which agrees
  with byte-wise UTF-8 order.
* `ser` models `serde_json::to_writer` / `serde_json::to_vec` (compact
  encoding, `serde_json`'s escaping rules for strings).
* `parseVal` models `serde_json`'s streaming deserializer reading exactly
  one JSON document, including its error *categories*: the `PErr` codes
  mirroring `ErrorCode::EofWhileParsing…` classify as end-of-input
  (`isEofCode`), everything else as a syntax failure.  The fuel argument
  is a totality device; `read_value_from_json` supplies `3 * length + 1`
  fuel, which exceeds what any input can consume (every three fuel steps
  consume at least one input character).
* The transport operations keep their source names (`begin_call`,
  `add_param`, `value_for_state`, `tx_finalize`, `read_value_from_json`,
  `rx_begin_call`, `rx_read_param`, `tx_response`, `rx_response`).
  The value codec (`Serialize`/`Deserialize` of individual parameter and
  return values) is external to the transport, so operations take already
  encoded `JValue`s, and `rx_read_param` takes the decoder as a function
  argument.  The channel is an in-memory byte sink recording written
  characters and flushes; each direction of the bidirectional channel is
  a `List Char`.
-/

/-- JSON value, as `serde_json::value::Value` restricted to integer
numbers.  Objects are sorted association lists (`BTreeMap` order). -/
inductive JValue : Type where
  | jnull : JValue
  | jbool : Bool → JValue
  | jnum : Int → JValue
  | jstr : List Char → JValue
  | jarr : List JValue → JValue
  | jobj : List (List Char × JValue) → JValue

/-- Strict lexicographic order on keys, by scalar value, matching Rust's
`Ord for String` (byte-wise UTF-8 order). -/
def keyLt : List Char → List Char → Bool
  | [], [] => false
  | [], _ :: _ => true
  | _ :: _, [] => false
  | a :: as, b :: bs =>
    if a.toNat < b.toNat then true
    else if b.toNat < a.toNat then false
    else keyLt as bs

/-- Insertion into a key-sorted association list, replacing an existing
binding; models `BTreeMap::insert`. -/
def mapInsert (k : List Char) (v : JValue) : List (List Char × JValue) → List (List Char × JValue)
  | [] => [(k, v)]
  | (k2, v2) :: t =>
    if keyLt k k2 then (k, v) :: (k2, v2) :: t
    else if k = k2 then (k, v) :: t
    else (k2, v2) :: mapInsert k v t

/-- Key lookup in an association list; models `BTreeMap::get`. -/
def mapLookup (k : List Char) : List (List Char × JValue) → Option JValue
  | [] => none
  | (k2, v2) :: t => if k = k2 then some v2 else mapLookup k t

/-- Field access on a JSON value with a string index; models
`Value::get(name)`, which is `None` on every non-object. -/
def jGet (v : JValue) (k : List Char) : Option JValue :=
  match v with
  | .jobj m => mapLookup k m
  | _ => none

/-- String view of a JSON value; models `Value::as_str`. -/
def asStr : JValue → Option (List Char)
  | .jstr s => some s
  | _ => none

/-- Consecutive-key sortedness of an association list, the invariant of a
`BTreeMap`'s entry sequence. -/
def sortedKeysB : List (List Char × JValue) → Bool
  | [] => true
  | [_] => true
  | a :: b :: t => keyLt a.1 b.1 && sortedKeysB (b :: t)

mutual
/-- Well-formedness of the embedding: every object in the value is sorted
with strictly increasing keys, as `serde_json`'s `BTreeMap` guarantees for
every value it ever produces. -/
def WFb : JValue → Bool
  | .jnull => true
  | .jbool _ => true
  | .jnum _ => true
  | .jstr _ => true
  | .jarr es => WFbItems es
  | .jobj ms => sortedKeysB ms && WFbFields ms

/-- All array elements are well-formed. -/
def WFbItems : List JValue → Bool
  | [] => true
  | v :: vs => WFb v && WFbItems vs

/-- All object field values are well-formed. -/
def WFbFields : List (List Char × JValue) → Bool
  | [] => true
  | m :: ms => WFb m.2 && WFbFields ms
end

/-- Error kinds of `RPCError` produced by this transport (the framework
enum has further kinds; the transport uses exactly these two). -/
inductive RPCErrorKind : Type where
  | serializationError : RPCErrorKind
  | transportEOF : RPCErrorKind
deriving DecidableEq, Repr

/-- The framework error value: a kind and a human-readable message (the
underlying cause is dropped by the embedding). -/
structure RPCError : Type where
  kind : RPCErrorKind
  msg : List Char
deriving DecidableEq, Repr

/-- Message of `convert_error`. -/
def convertMsg : List Char := ("json serialization or deserialization failed").toList

/-- Message attached to the clean end-of-stream error. -/
def eofMsg : List Char := ("EOF during json deserialization").toList

/-- A compile-time method identity; only the name is used by this
transport. -/
structure MethodId : Type where
  name : List Char
  num : Nat

/-- A received method identity, by name or by numeric tag. -/
inductive PartialMethodId : Type where
  | Name : List Char → PartialMethodId
  | Num : Nat → PartialMethodId
deriving DecidableEq, Repr

/-- Client-side per-call state: the method name and the accumulating
parameter object. -/
structure JTXState : Type where
  method : List Char
  params : JValue

/-- Server-side per-call state: the full parsed request. -/
structure JRXState : Type where
  json : JValue

/-- One direction of the channel: characters written so far and the number
of flushes performed. -/
structure Channel : Type where
  sent : List Char
  flushes : Nat
deriving DecidableEq, Repr

/-- Decimal digit test on a character. -/
def isDig (c : Char) : Bool := 48 ≤ c.toNat && c.toNat ≤ 57

/-- Numeric value of a decimal digit character. -/
def dval (c : Char) : Nat := c.toNat - 48

/-- The character of a decimal digit. -/
def digitChar (n : Nat) : Char := Char.ofNat (48 + n)

/-- Lowercase hexadecimal digit character. -/
def hexDigitChar (n : Nat) : Char :=
  if n < 10 then Char.ofNat (48 + n) else Char.ofNat (87 + n)

/-- Decimal rendering of a natural number, most significant digit first,
no leading zeros (matching `itoa`, which `serde_json` uses). -/
def natChars (n : Nat) : List Char :=
  if n < 10 then [digitChar n]
  else natChars (n / 10) ++ [digitChar (n % 10)]
decreasing_by exact Nat.div_lt_self (by omega) (by omega)

/-- Decimal rendering of an integer. -/
def serNum (i : Int) : List Char :=
  if i < 0 then '-' :: natChars i.natAbs else natChars i.toNat

/-- The escape sequence `serde_json` emits for one string character:
quote and backslash get two-character escapes, the five short control
escapes are used where they exist, other control characters use the
`\u00XX` form, and everything else is written literally. -/
def escChar (c : Char) : List Char :=
  if c = '"' then ['\\', '"']
  else if c = '\\' then ['\\', '\\']
  else if c.toNat = 8 then ['\\', 'b']
  else if c.toNat = 9 then ['\\', 't']
  else if c.toNat = 10 then ['\\', 'n']
  else if c.toNat = 12 then ['\\', 'f']
  else if c.toNat = 13 then ['\\', 'r']
  else if c.toNat < 32 then
    ['\\', 'u', '0', '0', hexDigitChar (c.toNat / 16), hexDigitChar (c.toNat % 16)]
  else [c]

/-- Escaped body of a JSON string. -/
def escChars : List Char → List Char
  | [] => []
  | c :: cs => escChar c ++ escChars cs

mutual
/-- Compact serialization of a JSON value, as `serde_json::to_writer`
renders it (no added whitespace, fields in stored map order). -/
def ser : JValue → List Char
  | .jnull => ['n', 'u', 'l', 'l']
  | .jbool true => ['t', 'r', 'u', 'e']
  | .jbool false => ['f', 'a', 'l', 's', 'e']
  | .jnum i => serNum i
  | .jstr s => '"' :: (escChars s ++ ['"'])
  | .jarr es => '[' :: serItems es
  | .jobj ms => '{' :: serFields ms

/-- Array body including the closing bracket. -/
def serItems : List JValue → List Char
  | [] => [']']
  | v :: vs => ser v ++ serItemsRest vs

/-- Continuation of an array body after one element. -/
def serItemsRest : List JValue → List Char
  | [] => [']']
  | v :: vs => ',' :: (ser v ++ serItemsRest vs)

/-- Object body including the closing brace. -/
def serFields : List (List Char × JValue) → List Char
  | [] => ['}']
  | m :: ms => serField m ++ serFieldsRest ms

/-- One `"key":value` field. -/
def serField : List Char × JValue → List Char
  | (k, v) => '"' :: (escChars k ++ ('"' :: ':' :: ser v))

/-- Continuation of an object body after one field. -/
def serFieldsRest : List (List Char × JValue) → List Char
  | [] => ['}']
  | m :: ms => ',' :: (serField m ++ serFieldsRest ms)
end

/-- Parser-level error codes, mirroring the `serde_json::ErrorCode`s the
transport can observe; the four end-of-input codes are the ones
`Error::classify` reports as `Category::Eof`. -/
inductive PErr : Type where
  | eofValue : PErr
  | eofString : PErr
  | eofList : PErr
  | eofObject : PErr
  | synEx : PErr
  | noFuel : PErr
deriving DecidableEq, Repr

/-- Whether an error code classifies as `Category::Eof` (input ended
prematurely), per `serde_json::Error::classify`. -/
def isEofCode : PErr → Bool
  | .eofValue => true
  | .eofString => true
  | .eofList => true
  | .eofObject => true
  | _ => false

/-- JSON insignificant whitespace. -/
def isWs (c : Char) : Bool := c = ' ' || c = '\t' || c = '\n' || c = '\r'

/-- Skip insignificant whitespace, as the deserializer does between
tokens. -/
def skipWs : List Char → List Char
  | [] => []
  | c :: r => if isWs c then skipWs r else c :: r

/-- Consume an expected literal tail (of `null`, `true`, `false`); ending
early is a premature end of input, a mismatch is a syntax failure. -/
def expectChars : List Char → List Char → Except PErr (List Char)
  | [], s => .ok s
  | _ :: _, [] => .error .eofValue
  | e :: es, c :: r => if c = e then expectChars es r else .error .synEx

/-- Numeric value of a hexadecimal digit character, either case. -/
def hexVal (c : Char) : Option Nat :=
  if 48 ≤ c.toNat && c.toNat ≤ 57 then some (c.toNat - 48)
  else if 97 ≤ c.toNat && c.toNat ≤ 102 then some (c.toNat - 87)
  else if 65 ≤ c.toNat && c.toNat ≤ 70 then some (c.toNat - 55)
  else none

/-- The single-character escapes JSON accepts after a backslash. -/
def escSimple (e : Char) : Option Char :=
  if e = '"' then some '"'
  else if e = '\\' then some '\\'
  else if e = '/' then some '/'
  else if e = 'b' then some (Char.ofNat 8)
  else if e = 'f' then some (Char.ofNat 12)
  else if e = 'n' then some (Char.ofNat 10)
  else if e = 'r' then some (Char.ofNat 13)
  else if e = 't' then some (Char.ofNat 9)
  else none

/-- Parse the body of a JSON string (the opening quote already consumed),
returning the decoded characters and the input after the closing quote.
Raw control characters are rejected, escapes are decoded; surrogate
escapes are rejected (the embedding does not model surrogate pairs).
Input ending inside the string is the `EofWhileParsingString` code. -/
def parseStrBody : List Char → Except PErr (List Char × List Char)
  | [] => .error .eofString
  | c :: r =>
    if c = '"' then .ok ([], r)
    else if c = '\\' then
      match r with
      | [] => .error .eofString
      | e :: r2 =>
        if e = 'u' then
          match r2 with
          | h1 :: h2 :: h3 :: h4 :: r3 =>
            match hexVal h1, hexVal h2, hexVal h3, hexVal h4 with
            | some a, some b, some c2, some d =>
              let n := ((a * 16 + b) * 16 + c2) * 16 + d
              if 55296 ≤ n && n ≤ 57343 then .error .synEx
              else
                match parseStrBody r3 with
                | .ok (cs, rest) => .ok (Char.ofNat n :: cs, rest)
                | .error err => .error err
            | _, _, _, _ => .error .synEx
          | _ =>
            if r2.all (fun h => (hexVal h).isSome) then .error .eofString
            else .error .synEx
        else
          match escSimple e with
          | some c2 =>
            match parseStrBody r2 with
            | .ok (cs, rest) => .ok (c2 :: cs, rest)
            | .error err => .error err
          | none => .error .synEx
    else if c.toNat < 32 then .error .synEx
    else
      match parseStrBody r with
      | .ok (cs, rest) => .ok (c :: cs, rest)
      | .error err => .error err

/-- Greedily consume decimal digits, accumulating their value. -/
def parseDigitsAux : List Char → Nat → Nat × List Char
  | [], acc => (acc, [])
  | c :: r, acc => if isDig c then parseDigitsAux r (acc * 10 + dval c) else (acc, c :: r)

/-- Signed integer with the given sign applied. -/
def signedOf (neg : Bool) (n : Nat) : Int := if neg then -(n : Int) else n

/-- Parse the digits of a number whose optional minus sign has been
consumed.  A leading zero may not be followed by further digits; the
input ending right after the sign is a premature end of input.
(Fractional and exponent parts are not modelled; the embedding stops at
the end of the integer digits.) -/
def parseNumFrom (neg : Bool) (s : List Char) : Except PErr (JValue × List Char) :=
  match s with
  | [] => .error .eofValue
  | c :: r =>
    if c = '0' then
      match r with
      | [] => .ok (.jnum (signedOf neg 0), [])
      | c2 :: _ => if isDig c2 then .error .synEx else .ok (.jnum (signedOf neg 0), r)
    else if isDig c then
      match parseDigitsAux r (dval c) with
      | (n, rest) => .ok (.jnum (signedOf neg n), rest)
    else .error .synEx

mutual
/-- Parse one JSON value, mirroring `serde_json`'s streaming
deserializer: skip whitespace, dispatch on the first character, leave
everything after the value unconsumed.  Fuel only bounds recursion depth;
`read_value_from_json` supplies more fuel than any input can use. -/
def parseVal : Nat → List Char → Except PErr (JValue × List Char)
  | 0, _ => .error .noFuel
  | fuel + 1, s =>
    match skipWs s with
    | [] => .error .eofValue
    | c :: r =>
      if c = 'n' then
        match expectChars (['u', 'l', 'l']) r with
        | .ok r2 => .ok (.jnull, r2)
        | .error e => .error e
      else if c = 't' then
        match expectChars (['r', 'u', 'e']) r with
        | .ok r2 => .ok (.jbool true, r2)
        | .error e => .error e
      else if c = 'f' then
        match expectChars (['a', 'l', 's', 'e']) r with
        | .ok r2 => .ok (.jbool false, r2)
        | .error e => .error e
      else if c = '"' then
        match parseStrBody r with
        | .ok (cs, r2) => .ok (.jstr cs, r2)
        | .error e => .error e
      else if c = '-' then parseNumFrom true r
      else if isDig c then parseNumFrom false (c :: r)
      else if c = '[' then parseArrStart fuel r
      else if c = '{' then parseObjStart fuel r
      else .error .synEx

/-- Parse an array body immediately after the opening bracket. -/
def parseArrStart : Nat → List Char → Except PErr (JValue × List Char)
  | 0, _ => .error .noFuel
  | fuel + 1, s =>
    match skipWs s with
    | [] => .error .eofList
    | c :: r =>
      if c = ']' then .ok (.jarr [], r)
      else
        match parseElems fuel (c :: r) with
        | .ok (es, r2) => .ok (.jarr es, r2)
        | .error e => .error e

/-- Parse the elements of a nonempty array body. -/
def parseElems : Nat → List Char → Except PErr (List JValue × List Char)
  | 0, _ => .error .noFuel
  | fuel + 1, s =>
    match parseVal fuel s with
    | .error e => .error e
    | .ok (v, r) =>
      match skipWs r with
      | [] => .error .eofList
      | c :: r2 =>
        if c = ',' then
          match parseElems fuel r2 with
          | .ok (es, r3) => .ok (v :: es, r3)
          | .error e => .error e
        else if c = ']' then .ok ([v], r2)
        else .error .synEx

/-- Parse an object body immediately after the opening brace. -/
def parseObjStart : Nat → List Char → Except PErr (JValue × List Char)
  | 0, _ => .error .noFuel
  | fuel + 1, s =>
    match skipWs s with
    | [] => .error .eofObject
    | c :: r =>
      if c = '}' then .ok (.jobj [], r)
      else if c = '"' then parseFields fuel [] r
      else .error .synEx

/-- Parse the fields of a nonempty object body, the opening quote of the
next key already consumed; fields accumulate through `mapInsert`, exactly
as deserializing into a `BTreeMap` does (a repeated key keeps the last
value). -/
def parseFields : Nat → List (List Char × JValue) → List Char → Except PErr (JValue × List Char)
  | 0, _, _ => .error .noFuel
  | fuel + 1, acc, s =>
    match parseStrBody s with
    | .error e => .error e
    | .ok (k, r1) =>
      match skipWs r1 with
      | [] => .error .eofObject
      | c :: r2 =>
        if c = ':' then
          match parseVal fuel r2 with
          | .error e => .error e
          | .ok (v, r3) =>
            match skipWs r3 with
            | [] => .error .eofObject
            | c2 :: r4 =>
              if c2 = ',' then
                match skipWs r4 with
                | [] => .error .eofObject
                | c3 :: r5 =>
                  if c3 = '"' then parseFields fuel (mapInsert k v acc) r5
                  else .error .synEx
              else if c2 = '}' then .ok (.jobj (mapInsert k v acc), r4)
              else .error .synEx
        else .error .synEx
end

/-- Deserialize one JSON value from a byte stream, classifying errors as
the source's `read_value_from_json` does: a `Category::Eof` parse error
becomes a `TransportEOF` `RPCError`, every other failure goes through
`convert_error` and becomes a `SerializationError`.  Returns the value
and the unconsumed remainder of the stream. -/
def read_value_from_json (s : List Char) : Except RPCError (JValue × List Char) :=
  match parseVal (3 * s.length + 1) s with
  | .ok vr => .ok vr
  | .error e =>
    if isEofCode e then .error ⟨.transportEOF, eofMsg⟩
    else .error ⟨.serializationError, convertMsg⟩

/-- Client `tx_begin_call` / shared `begin_call`: a fresh TX state with
the method name and an empty parameter object. -/
def begin_call (method : MethodId) : JTXState :=
  { method := method.name, params := .jobj [] }

/-- Shared `add_param`: insert the encoded value into the parameter
object.  The source unwraps `params.as_object_mut()`; the `Option`
result models that panic (`none` exactly when `params` is not an
object).  The value is already encoded — `serde_json::to_value` is the
external value codec. -/
def add_param (name : List Char) (value : JValue) (state : JTXState) : Option JTXState :=
  match state.params with
  | .jobj m => some { state with params := .jobj (mapInsert name value m) }
  | _ => none

/-- Shared `value_for_state`: the JSON-RPC 2.0 request envelope.  The
`json!` macro inserts the listed fields into a fresh `BTreeMap`-backed
object in source order; `id` is the rendered fresh UUID, passed in
because UUID generation is external. -/
def value_for_state (state : JTXState) (id : List Char) : JValue :=
  .jobj (mapInsert (("id").toList) (.jstr id)
    (mapInsert (("params").toList) state.params
      (mapInsert (("method").toList) (.jstr state.method)
        (mapInsert (("jsonrpc").toList) (.jstr (("2.0").toList)) []))))

/-- Client `tx_finalize`: serialize the request envelope to the channel,
then flush. -/
def tx_finalize (state : JTXState) (id : List Char) (ch : Channel) : Channel :=
  { sent := ch.sent ++ ser (value_for_state state id), flushes := ch.flushes + 1 }

/-- Client `rx_response`: deserialize one JSON value from the channel
(the decode into the expected return type is the external value codec;
the embedding returns the JSON value). -/
def rx_response (s : List Char) : Except RPCError (JValue × List Char) :=
  read_value_from_json s

/-- The value-level part of server `rx_begin_call`, after the request
has been read: look up `"method"`, require it to be a string, and return
the name-bearing `PartialMethodId` with an RX state holding the full
value. -/
def rx_begin_call_value (value : JValue) : Except RPCError (PartialMethodId × JRXState) :=
  match jGet value (("method").toList) with
  | none => .error ⟨.serializationError, ("json is not expected object").toList⟩
  | some mv =>
    match asStr mv with
    | none => .error ⟨.serializationError, ("json method was not string").toList⟩
    | some s => .ok (.Name s, { json := value })

/-- Server `rx_begin_call`: read one JSON value from the channel, then
extract the method name. -/
def rx_begin_call (s : List Char) : Except RPCError ((PartialMethodId × JRXState) × List Char) :=
  match read_value_from_json s with
  | .error e => .error e
  | .ok (value, rest) =>
    match rx_begin_call_value value with
    | .error e => .error e
    | .ok p => .ok (p, rest)

/-- Server `rx_read_param`: look up `params[name]` in the held request
and decode it with the external value codec `dec`
(`serde_json::from_value`); a decode failure goes through
`convert_error`.  The source takes the RX state by mutable reference but
never writes it; the returned state is the input state. -/
def rx_read_param {α : Type} (dec : JValue → Option α) (name : List Char)
    (state : JRXState) : Except RPCError α × JRXState :=
  (match jGet state.json (("params").toList) with
   | none => .error ⟨.serializationError, ("json is not expected object").toList⟩
   | some pv =>
     match jGet pv name with
     | none => .error ⟨.serializationError, ("parameters do not contain ").toList ++ name⟩
     | some v =>
       match dec v with
       | none => .error ⟨.serializationError, convertMsg⟩
       | some a => .ok a,
   state)

/-- Server `tx_response`: serialize the encoded return value to the
channel, then flush.  No JSON-RPC response envelope is added. -/
def tx_response (value : JValue) (ch : Channel) : Channel :=
  { sent := ch.sent ++ ser value, flushes := ch.flushes + 1 }

/-- Async client `tx_begin_call`: the async implementation calls the same
shared `begin_call`. -/
def async_tx_begin_call (method : MethodId) : JTXState := begin_call method

/-- Async client `tx_add_param`: the async implementation calls the same
shared `add_param`. -/
def async_tx_add_param (name : List Char) (value : JValue) (state : JTXState) :
    Option JTXState :=
  add_param name value state

/-- Async client `tx_finalize`: serialize the full request to an
in-memory buffer (`serde_json::to_vec`) first, then write the buffer to
the channel in one operation and flush. -/
def async_tx_finalize (state : JTXState) (id : List Char) (ch : Channel) : Channel :=
  let buffer : List Char := ser (value_for_state state id)
  { sent := ch.sent ++ buffer, flushes := ch.flushes + 1 }

/-- A version-4 UUID value: sixteen bytes. -/
def Uuid : Type := Fin 16 → Fin 256

/-- Two lowercase hexadecimal digits of one byte. -/
def hexPair (b : Fin 256) : List Char :=
  [hexDigitChar (b.val / 16), hexDigitChar (b.val % 16)]

/-- Modelled from the spec: the `uuid` crate's `Display` (not part of
this repository) renders a UUID "formatted as its lowercase hyphenated
canonical form", hexadecimal byte pairs in 8-4-4-4-12 grouping. -/
def uuidRender (u : Uuid) : List Char :=
  hexPair (u 0) ++ hexPair (u 1) ++ hexPair (u 2) ++ hexPair (u 3) ++
    ('-' :: (hexPair (u 4) ++ hexPair (u 5))) ++
    ('-' :: (hexPair (u 6) ++ hexPair (u 7))) ++
    ('-' :: (hexPair (u 8) ++ hexPair (u 9))) ++
    ('-' :: (hexPair (u 10) ++ hexPair (u 11) ++ hexPair (u 12) ++
      hexPair (u 13) ++ hexPair (u 14) ++ hexPair (u 15)))

/-- Lowercase hexadecimal digit test. -/
def isHexLower (c : Char) : Bool :=
  (48 ≤ c.toNat && c.toNat ≤ 57) || (97 ≤ c.toNat && c.toNat ≤ 102)

/-- Consume exactly `n` lowercase hexadecimal characters. -/
def hexRun : Nat → List Char → Option (List Char)
  | 0, s => some s
  | _ + 1, [] => none
  | n + 1, c :: r => if isHexLower c then hexRun n r else none

/-- Consume one hyphen. -/
def dashRun : List Char → Option (List Char)
  | c :: r => if c = '-' then some r else none
  | [] => none

/-- The canonical lowercase hyphenated UUID string grammar:
8-4-4-4-12 lowercase hexadecimal digits separated by hyphens. -/
def isCanonUuid (s : List Char) : Bool :=
  match ((((((((hexRun 8 s).bind dashRun).bind (hexRun 4)).bind dashRun).bind
      (hexRun 4)).bind dashRun).bind (hexRun 4)).bind dashRun).bind (hexRun 12) with
  | some [] => true
  | _ => false

/-- Left fold of `add_param` over a parameter list, the way generated
client stubs drive the transport. -/
def addParams (ps : List (List Char × JValue)) (st : JTXState) : Option JTXState :=
  List.foldlM (fun s kv => add_param kv.1 kv.2 s) st ps

/-- The parameter map `P` rendered as a by-name JSON object: inserting
each binding into an initially empty `BTreeMap`-style object. -/
def renderParams (ps : List (List Char × JValue)) : List (List Char × JValue) :=
  ps.foldl (fun m kv => mapInsert kv.1 kv.2 m) []

/-- The client-server-client composition of one call over one channel:
the client finalizes the request, the server begins the call from the
client-to-server bytes, reads any sequence of parameters, sends the
response `v`, and the client receives it from the server-to-client
bytes. -/
def round_trip (txst : JTXState) (id : List Char) (names : List (List Char))
    (v : JValue) : Except RPCError JValue :=
  let c2s : Channel := tx_finalize txst id { sent := [], flushes := 0 }
  match rx_begin_call c2s.sent with
  | .error e => .error e
  | .ok ((_pm, rxst0), _restc2s) =>
    let rxst1 : JRXState := names.foldl (fun st n => (rx_read_param some n st).2) rxst0
    let s2c : Channel := tx_response v { sent := [], flushes := 0 }
    match rxst1, rx_response s2c.sent with
    | _, .error e => .error e
    | _, .ok (w, _rests2c) => .ok w

/-- Sortedness of the keys of an association list, in `Prop` form. -/
def SKeys (m : List (List Char × JValue)) : Prop :=
  List.Pairwise (fun a b => keyLt a.1 b.1 = true) m

/-- A remainder that cannot extend parsed digits: empty or headed by a
non-digit. -/
def numEnd : List Char → Bool
  | [] => true
  | c :: _ => !isDig c

/-- Value of a digit run under an accumulator, the way `parseDigitsAux`
accumulates it. -/
def dsVal : List Char → Nat → Nat
  | [], a => a
  | c :: t, a => dsVal t (a * 10 + dval c)

/-- Whether the remainder cannot extend the serialization of `v` (only
numbers are not self-delimiting). -/
def numSep (v : JValue) (rest : List Char) : Bool :=
  match v with
  | .jnum _ => numEnd rest
  | _ => true

/-- The concrete truncated request of the claim: the bytes of
`beginning-of-request` up to and including the colon after the method
key, then end of stream. -/
def c3Input : List Char :=
  ['{', '"', 'j', 's', 'o', 'n', 'r', 'p', 'c', '"', ':', '"', '2', '.', '0', '"',
   ',', '"', 'm', 'e', 't', 'h', 'o', 'd', '"', ':']

theorem charEq_of_toNat {a b : Char} (h : a.toNat = b.toNat) : a = b := by
  have := Char.ofNat_toNat a
  rw [h, Char.ofNat_toNat] at this
  exact this.symm

theorem keyLt_irrefl : ∀ k, keyLt k k = false
  | [] => rfl
  | _ :: t => by simp [keyLt, keyLt_irrefl t]

theorem keyLt_ne {a b : List Char} (h : keyLt a b = true) : a ≠ b := by
  intro he
  subst he
  rw [keyLt_irrefl] at h
  exact Bool.false_ne_true h

theorem keyLt_asymm : ∀ a b, keyLt a b = true → keyLt b a = false
  | [], [] => by intro h; exact absurd h (by simp [keyLt])
  | [], _ :: _ => by intro _; rfl
  | _ :: _, [] => by intro h; exact absurd h (by simp [keyLt])
  | a :: as, b :: bs => by
    intro h
    simp only [keyLt] at h ⊢
    by_cases hab : a.toNat < b.toNat
    · simp [hab, Nat.lt_asymm hab]
    · simp only [if_neg hab] at h
      by_cases hba : b.toNat < a.toNat
      · simp [hba] at h
      · rw [if_neg hba] at h
        simp only [if_neg hba, if_neg hab]
        exact keyLt_asymm as bs h

theorem keyLt_trans : ∀ a b c, keyLt a b = true → keyLt b c = true → keyLt a c = true
  | [], [], _ => by intro h _; exact absurd h (by simp [keyLt])
  | [], _ :: _, [] => by intro _ h; exact absurd h (by simp [keyLt])
  | [], _ :: _, _ :: _ => by intro _ _; rfl
  | _ :: _, [], _ => by intro h _; exact absurd h (by simp [keyLt])
  | _ :: _, _ :: _, [] => by intro _ h; exact absurd h (by simp [keyLt])
  | a :: as, b :: bs, c :: cs => by
    intro h1 h2
    simp only [keyLt] at h1 h2 ⊢
    by_cases hab : a.toNat < b.toNat
    · by_cases hbc : b.toNat < c.toNat
      · simp [Nat.lt_trans hab hbc]
      · simp only [if_neg hbc] at h2
        by_cases hcb : c.toNat < b.toNat
        · simp [hcb] at h2
        · have : b.toNat = c.toNat := by omega
          simp [this ▸ hab]
    · simp only [if_neg hab] at h1
      by_cases hba : b.toNat < a.toNat
      · simp [hba] at h1
      · have hane : a.toNat = b.toNat := by omega
        by_cases hbc : b.toNat < c.toNat
        · simp [hane ▸ hbc]
        · simp only [if_neg hbc] at h2
          by_cases hcb : c.toNat < b.toNat
          · simp [hcb] at h2
          · have hbce : b.toNat = c.toNat := by omega
            have hac : ¬ a.toNat < c.toNat := by omega
            have hca : ¬ c.toNat < a.toNat := by omega
            rw [if_neg hba] at h1
            rw [if_neg hcb] at h2
            simp only [if_neg hac, if_neg hca]
            exact keyLt_trans as bs cs h1 h2

theorem keyLt_total : ∀ a b, keyLt a b = false → keyLt b a = false → a = b
  | [], [] => by intro _ _; rfl
  | [], _ :: _ => by intro h _; exact absurd h (by simp [keyLt])
  | _ :: _, [] => by intro _ h; exact absurd h (by simp [keyLt])
  | a :: as, b :: bs => by
    intro h1 h2
    simp only [keyLt] at h1 h2
    by_cases hab : a.toNat < b.toNat
    · simp [hab] at h1
    · by_cases hba : b.toNat < a.toNat
      · simp [hab, hba] at h2
      · simp only [if_neg hab, if_neg hba] at h1 h2
        have he : a = b := charEq_of_toNat (by omega)
        rw [he, keyLt_total as bs h1 h2]

theorem keyLt_tri (a b : List Char) : keyLt a b = true ∨ a = b ∨ keyLt b a = true := by
  cases h1 : keyLt a b with
  | true => exact Or.inl rfl
  | false =>
    cases h2 : keyLt b a with
    | true => exact Or.inr (Or.inr rfl)
    | false => exact Or.inr (Or.inl (keyLt_total a b h1 h2))

theorem mapInsert_comm (k1 k2 : List Char) (hne : k1 ≠ k2) (v1 v2 : JValue) :
    ∀ m, mapInsert k1 v1 (mapInsert k2 v2 m) = mapInsert k2 v2 (mapInsert k1 v1 m) := by
  have htri := keyLt_tri k1 k2
  intro m
  induction m with
  | nil =>
    rcases htri with h12 | he | h21
    · have h21 := keyLt_asymm _ _ h12
      simp [mapInsert, h12, h21, hne, Ne.symm hne]
    · exact absurd he hne
    · have h12 := keyLt_asymm _ _ h21
      simp [mapInsert, h12, h21, hne, Ne.symm hne]
  | cons hd t ih =>
    obtain ⟨k, w⟩ := hd
    rcases keyLt_tri k2 k with hA | hB | hC
    · -- k2 sorts before k
      rcases htri with h12 | he | h21
      · have h1k : keyLt k1 k = true := keyLt_trans _ _ _ h12 hA
        have h21 : keyLt k2 k1 = false := keyLt_asymm _ _ h12
        simp [mapInsert, hA, h12, h1k, h21, Ne.symm hne]
      · exact absurd he hne
      · have h12 : keyLt k1 k2 = false := keyLt_asymm _ _ h21
        rcases keyLt_tri k1 k with hx | hx | hx
        · simp [mapInsert, hA, h12, hne, hx, h21]
        · subst hx
          simp [mapInsert, hA, h12, hne, keyLt_irrefl, h21]
        · have h1k : keyLt k1 k = false := keyLt_asymm _ _ hx
          have h1nk : k1 ≠ k := Ne.symm (keyLt_ne hx)
          simp [mapInsert, hA, h12, hne, h1k, h1nk, h21]
    · -- k2 equals k
      subst hB
      rcases htri with h12 | he | h21
      · have h21 : keyLt k2 k1 = false := keyLt_asymm _ _ h12
        simp [mapInsert, keyLt_irrefl, h12, h21, Ne.symm hne]
      · exact absurd he hne
      · have h12 : keyLt k1 k2 = false := keyLt_asymm _ _ h21
        simp [mapInsert, keyLt_irrefl, h12, hne, h21]
    · -- k sorts before k2
      have hk2k : keyLt k2 k = false := keyLt_asymm _ _ hC
      have hk2nk : k2 ≠ k := Ne.symm (keyLt_ne hC)
      rcases keyLt_tri k1 k with hx | hx | hx
      · -- k1 before k, hence k1 before k2
        have h12 : keyLt k1 k2 = true := keyLt_trans _ _ _ hx hC
        have h21 : keyLt k2 k1 = false := keyLt_asymm _ _ h12
        simp [mapInsert, hx, hk2k, hk2nk, h12, h21, Ne.symm hne]
      · subst hx
        have h21 : keyLt k2 k1 = false := keyLt_asymm _ _ hC
        simp [mapInsert, keyLt_irrefl, hk2k, Ne.symm hne, h21, hC]
      · -- k before both k1 and k2
        have h1k : keyLt k1 k = false := keyLt_asymm _ _ hx
        have h1nk : k1 ≠ k := Ne.symm (keyLt_ne hx)
        simp [mapInsert, hk2k, hk2nk, h1k, h1nk, ih]

theorem mapInsert_append_gt (k : List Char) (v : JValue) :
    ∀ m, (∀ kv ∈ m, keyLt kv.1 k = true) → mapInsert k v m = m ++ [(k, v)]
  | [], _ => rfl
  | (k2, v2) :: t, h => by
    have hlt : keyLt k2 k = true := h (k2, v2) (by simp)
    have h1 : keyLt k k2 = false := keyLt_asymm _ _ hlt
    have h2 : k ≠ k2 := Ne.symm (keyLt_ne hlt)
    simp only [mapInsert, h1, h2, if_neg, Bool.false_eq_true, if_false, List.cons_append,
      List.cons.injEq, true_and]
    exact mapInsert_append_gt k v t (fun kv hkv => h kv (by simp [hkv]))

theorem mem_mapInsert (kv : List Char × JValue) (k : List Char) (v : JValue) :
    ∀ m, kv ∈ mapInsert k v m → kv = (k, v) ∨ kv ∈ m
  | [], h => by
    simp only [mapInsert, List.mem_singleton] at h
    exact Or.inl h
  | (k2, v2) :: t, h => by
    simp only [mapInsert] at h
    by_cases h1 : keyLt k k2 = true
    · rw [if_pos h1] at h
      rcases List.mem_cons.mp h with hx | hx
      · exact Or.inl hx
      · exact Or.inr hx
    · rw [if_neg h1] at h
      by_cases h2 : k = k2
      · rw [if_pos h2] at h
        rcases List.mem_cons.mp h with hx | hx
        · exact Or.inl hx
        · exact Or.inr (List.mem_cons_of_mem _ hx)
      · rw [if_neg h2] at h
        rcases List.mem_cons.mp h with hx | hx
        · exact Or.inr (by simp [hx])
        · rcases mem_mapInsert kv k v t hx with hy | hy
          · exact Or.inl hy
          · exact Or.inr (List.mem_cons_of_mem _ hy)

theorem skeys_mapInsert (k : List Char) (v : JValue) :
    ∀ m, SKeys m → SKeys (mapInsert k v m)
  | [], _ => by simp [mapInsert, SKeys]
  | (k2, v2) :: t, hs => by
    obtain ⟨hhead, htail⟩ := List.pairwise_cons.mp hs
    simp only [mapInsert]
    by_cases h1 : keyLt k k2 = true
    · rw [if_pos h1]
      refine List.pairwise_cons.mpr ⟨?_, hs⟩
      intro kv hkv
      rcases List.mem_cons.mp hkv with hx | hx
      · simpa [hx] using h1
      · exact keyLt_trans _ _ _ h1 (hhead kv hx)
    · rw [if_neg h1]
      by_cases h2 : k = k2
      · rw [if_pos h2]
        refine List.pairwise_cons.mpr ⟨?_, htail⟩
        intro kv hkv
        rw [h2]
        exact hhead kv hkv
      · rw [if_neg h2]
        refine List.pairwise_cons.mpr ⟨?_, skeys_mapInsert k v t htail⟩
        intro kv hkv
        rcases mem_mapInsert kv k v t hkv with hx | hx
        · rw [hx]
          rcases keyLt_tri k k2 with hy | hy | hy
          · exact absurd hy h1
          · exact absurd hy h2
          · simpa using hy
        · exact hhead kv hx

theorem sortedKeysB_iff : ∀ m, sortedKeysB m = true ↔ SKeys m
  | [] => by simp [sortedKeysB, SKeys]
  | [a] => by simp [sortedKeysB, SKeys]
  | a :: b :: t => by
    rw [show sortedKeysB (a :: b :: t) = (keyLt a.1 b.1 && sortedKeysB (b :: t)) from rfl,
      Bool.and_eq_true, sortedKeysB_iff (b :: t)]
    constructor
    · rintro ⟨hab, htail⟩
      refine List.pairwise_cons.mpr ⟨?_, htail⟩
      intro kv hkv
      rcases List.mem_cons.mp hkv with hx | hx
      · simpa [hx] using hab
      · exact keyLt_trans _ _ _ hab ((List.pairwise_cons.mp htail).1 kv hx)
    · intro h
      obtain ⟨hhead, htail⟩ := List.pairwise_cons.mp h
      exact ⟨hhead b (by simp), htail⟩

theorem digitChar_toNat {d : Nat} (h : d < 10) : (digitChar d).toNat = 48 + d := by
  interval_cases d <;> decide

theorem isDig_digitChar {d : Nat} (h : d < 10) : isDig (digitChar d) = true := by
  interval_cases d <;> decide

theorem dval_digitChar {d : Nat} (h : d < 10) : dval (digitChar d) = d := by
  interval_cases d <;> decide

theorem digitChar_ne_zero {d : Nat} (h1 : 1 ≤ d) (h2 : d < 10) : digitChar d ≠ '0' := by
  interval_cases d <;> decide

theorem natChars_ne_nil (n : Nat) : natChars n ≠ [] := by
  rw [natChars.eq_def]
  by_cases h : n < 10 <;> simp [h]

theorem natChars_digits (n : Nat) : ∀ c ∈ natChars n, isDig c = true := by
  induction n using Nat.strong_induction_on with
  | _ n ih =>
    rw [natChars.eq_def]
    by_cases h : n < 10
    · simp only [if_pos h, List.mem_singleton]
      intro c hc
      rw [hc]
      exact isDig_digitChar h
    · simp only [if_neg h, List.mem_append, List.mem_singleton]
      intro c hc
      rcases hc with hc | hc
      · exact ih (n / 10) (Nat.div_lt_self (by omega) (by omega)) c hc
      · rw [hc]
        exact isDig_digitChar (Nat.mod_lt _ (by omega))

theorem natChars_head_ne_zero (n : Nat) (hn : 1 ≤ n) :
    ∀ c t, natChars n = c :: t → c ≠ '0' := by
  induction n using Nat.strong_induction_on with
  | _ n ih =>
    intro c t hct
    rw [natChars.eq_def] at hct
    by_cases h : n < 10
    · rw [if_pos h] at hct
      simp only [List.cons.injEq] at hct
      rw [← hct.1]
      exact digitChar_ne_zero hn h
    · rw [if_neg h] at hct
      obtain ⟨c2, t2, he⟩ : ∃ c2 t2, natChars (n / 10) = c2 :: t2 := by
        cases hx : natChars (n / 10) with
        | nil => exact absurd hx (natChars_ne_nil _)
        | cons a b => exact ⟨a, b, rfl⟩
      rw [he, List.cons_append] at hct
      simp only [List.cons.injEq] at hct
      rw [← hct.1]
      exact ih (n / 10) (Nat.div_lt_self (by omega) (by omega))
        (by omega) c2 t2 he

theorem dsVal_append_digit (a : Nat) (d : Char) :
    ∀ ds, dsVal (ds ++ [d]) a = (dsVal ds a) * 10 + dval d
  | [] => rfl
  | c :: t => dsVal_append_digit (a * 10 + dval c) d t

theorem dsVal_natChars (n : Nat) : ∀ a, dsVal (natChars n) a = a * 10 ^ (natChars n).length + n := by
  induction n using Nat.strong_induction_on with
  | _ n ih =>
    intro a
    rw [natChars.eq_def]
    by_cases h : n < 10
    · simp [if_pos h, dsVal, dval_digitChar h]
    · rw [if_neg h, dsVal_append_digit, ih (n / 10) (Nat.div_lt_self (by omega) (by omega)),
        dval_digitChar (Nat.mod_lt _ (by omega))]
      simp only [List.length_append, List.length_singleton]
      rw [pow_succ]
      ring_nf
      omega

theorem parseDigitsAux_digits (rest : List Char) (hrest : numEnd rest = true) :
    ∀ ds a, (∀ c ∈ ds, isDig c = true) → parseDigitsAux (ds ++ rest) a = (dsVal ds a, rest)
  | [], a, _ => by
    cases rest with
    | nil => rfl
    | cons c t =>
      simp only [numEnd, Bool.not_eq_eq_eq_not, Bool.not_true] at hrest
      simp [parseDigitsAux, dsVal, hrest]
  | c :: t, a, h => by
    have hc : isDig c = true := h c (by simp)
    simp only [List.cons_append, parseDigitsAux, hc, if_pos, dsVal]
    exact parseDigitsAux_digits rest hrest t (a * 10 + dval c) (fun x hx => h x (by simp [hx]))

theorem parseNumFrom_natChars (neg : Bool) (n : Nat) (rest : List Char)
    (hrest : numEnd rest = true) :
    parseNumFrom neg (natChars n ++ rest) = .ok (.jnum (signedOf neg n), rest) := by
  by_cases hn : n = 0
  · subst hn
    have h0 : natChars 0 = ['0'] := by rw [natChars.eq_def]; simp [digitChar]
    rw [h0]
    cases rest with
    | nil => rfl
    | cons c t =>
      simp only [numEnd, Bool.not_eq_eq_eq_not, Bool.not_true] at hrest
      simp [parseNumFrom, hrest]
  · obtain ⟨c, t, hct⟩ : ∃ c t, natChars n = c :: t := by
      cases hx : natChars n with
      | nil => exact absurd hx (natChars_ne_nil _)
      | cons a b => exact ⟨a, b, rfl⟩
    have hcz : c ≠ '0' := natChars_head_ne_zero n (by omega) c t hct
    have hcd : isDig c = true := natChars_digits n c (by rw [hct]; simp)
    have htd : ∀ x ∈ t, isDig x = true := fun x hx => natChars_digits n x (by rw [hct]; simp [hx])
    rw [hct, List.cons_append]
    simp only [parseNumFrom, hcz, if_neg, hcd, if_pos]
    rw [parseDigitsAux_digits rest hrest t (dval c) htd]
    have : dsVal t (dval c) = n := by
      have := dsVal_natChars n 0
      rw [hct] at this
      simpa [dsVal] using this
    rw [this]
    simp

theorem hexVal_hexDigitChar {d : Nat} (h : d < 16) : hexVal (hexDigitChar d) = some d := by
  interval_cases d <;> decide

theorem psb_quote (r : List Char) : parseStrBody ('"' :: r) = .ok ([], r) := by
  rw [parseStrBody.eq_def]
  simp

theorem psb_lit {c : Char} (r : List Char) (h1 : ¬ c = '"') (h2 : ¬ c = '\\')
    (h3 : ¬ c.toNat < 32) :
    parseStrBody (c :: r) = (match parseStrBody r with
      | .ok (cs, rest) => .ok (c :: cs, rest)
      | .error err => .error err) := by
  rw [parseStrBody.eq_def]
  simp [h1, h2, h3]

theorem psb_esc {e c2 : Char} (r : List Char) (he : ¬ e = 'u') (hs : escSimple e = some c2) :
    parseStrBody ('\\' :: e :: r) = (match parseStrBody r with
      | .ok (cs, rest) => .ok (c2 :: cs, rest)
      | .error err => .error err) := by
  rw [parseStrBody.eq_def]
  simp [he, hs]

theorem psb_u {h1 h2 h3 h4 : Char} {a b c2 d : Nat} (r : List Char)
    (hh1 : hexVal h1 = some a) (hh2 : hexVal h2 = some b)
    (hh3 : hexVal h3 = some c2) (hh4 : hexVal h4 = some d)
    (hns : ¬ (55296 ≤ ((a * 16 + b) * 16 + c2) * 16 + d ∧
      ((a * 16 + b) * 16 + c2) * 16 + d ≤ 57343)) :
    parseStrBody ('\\' :: 'u' :: h1 :: h2 :: h3 :: h4 :: r) =
      (match parseStrBody r with
       | .ok (cs, rest) =>
          .ok (Char.ofNat (((a * 16 + b) * 16 + c2) * 16 + d) :: cs, rest)
       | .error err => .error err) := by
  rw [parseStrBody.eq_def]
  have hns1 : ¬ 55296 ≤ ((a * 16 + b) * 16 + c2) * 16 + d ∨
      ¬ ((a * 16 + b) * 16 + c2) * 16 + d ≤ 57343 := by omega
  rcases hns1 with hx | hx <;> simp [hh1, hh2, hh3, hh4, hx]

theorem parseStrBody_escChars : ∀ cs rest,
    parseStrBody (escChars cs ++ ('"' :: rest)) = .ok (cs, rest)
  | [], rest => by
    show parseStrBody ('"' :: rest) = .ok ([], rest)
    exact psb_quote rest
  | c :: cs, rest => by
    have ih := parseStrBody_escChars cs rest
    rw [show escChars (c :: cs) = escChar c ++ escChars cs from rfl, List.append_assoc]
    by_cases hq : c = '"'
    · subst hq
      rw [show escChar '"' = ['\\', '"'] from rfl]
      rw [List.cons_append, List.cons_append, List.nil_append,
        psb_esc _ (by decide) (by decide : escSimple '"' = some '"'), ih]
    · by_cases hb : c = '\\'
      · subst hb
        rw [show escChar '\\' = ['\\', '\\'] from rfl]
        rw [List.cons_append, List.cons_append, List.nil_append,
          psb_esc _ (by decide) (by decide : escSimple '\\' = some '\\'), ih]
      · by_cases h8 : c.toNat = 8
        · have hc : c = Char.ofNat 8 := charEq_of_toNat (by rw [h8]; decide)
          have hesc : escChar c = ['\\', 'b'] := by
            simp [escChar, hq, hb, h8]
          rw [hesc, List.cons_append, List.cons_append, List.nil_append,
            psb_esc _ (by decide) (by decide : escSimple 'b' = some (Char.ofNat 8)), ih, hc]
        · by_cases h9 : c.toNat = 9
          · have hc : c = Char.ofNat 9 := charEq_of_toNat (by rw [h9]; decide)
            have hesc : escChar c = ['\\', 't'] := by
              simp [escChar, hq, hb, h8, h9]
            rw [hesc, List.cons_append, List.cons_append, List.nil_append,
              psb_esc _ (by decide) (by decide : escSimple 't' = some (Char.ofNat 9)), ih, hc]
          · by_cases h10 : c.toNat = 10
            · have hc : c = Char.ofNat 10 := charEq_of_toNat (by rw [h10]; decide)
              have hesc : escChar c = ['\\', 'n'] := by
                simp [escChar, hq, hb, h8, h9, h10]
              rw [hesc, List.cons_append, List.cons_append, List.nil_append,
                psb_esc _ (by decide) (by decide : escSimple 'n' = some (Char.ofNat 10)), ih, hc]
            · by_cases h12 : c.toNat = 12
              · have hc : c = Char.ofNat 12 := charEq_of_toNat (by rw [h12]; decide)
                have hesc : escChar c = ['\\', 'f'] := by
                  simp [escChar, hq, hb, h8, h9, h10, h12]
                rw [hesc, List.cons_append, List.cons_append, List.nil_append,
                  psb_esc _ (by decide) (by decide : escSimple 'f' = some (Char.ofNat 12)), ih,
                  hc]
              · by_cases h13 : c.toNat = 13
                · have hc : c = Char.ofNat 13 := charEq_of_toNat (by rw [h13]; decide)
                  have hesc : escChar c = ['\\', 'r'] := by
                    simp [escChar, hq, hb, h8, h9, h10, h12, h13]
                  rw [hesc, List.cons_append, List.cons_append, List.nil_append,
                    psb_esc _ (by decide) (by decide : escSimple 'r' = some (Char.ofNat 13)),
                    ih, hc]
                · by_cases hlt : c.toNat < 32
                  · have hesc : escChar c = ['\\', 'u', '0', '0',
                        hexDigitChar (c.toNat / 16), hexDigitChar (c.toNat % 16)] := by
                      simp [escChar, hq, hb, h8, h9, h10, h12, h13, hlt]
                    have hd1 : c.toNat / 16 < 16 := by omega
                    have hd2 : c.toNat % 16 < 16 := by omega
                    have harith : ((0 * 16 + 0) * 16 + c.toNat / 16) * 16 + c.toNat % 16
                        = c.toNat := by omega
                    rw [hesc]
                    simp only [List.cons_append, List.nil_append]
                    rw [psb_u _ (by decide : hexVal '0' = some 0)
                      (by decide : hexVal '0' = some 0) (hexVal_hexDigitChar hd1)
                      (hexVal_hexDigitChar hd2) (by omega), ih, harith, Char.ofNat_toNat]
                  · have hesc : escChar c = [c] := by
                      simp [escChar, hq, hb, h8, h9, h10, h12, h13, hlt]
                    rw [hesc, List.cons_append, List.nil_append,
                      psb_lit _ hq hb hlt, ih]

theorem skipWs_not {c : Char} (r : List Char) (h : isWs c = false) : skipWs (c :: r) = c :: r := by
  simp [skipWs, h]

theorem isDig_dispatch {c : Char} (h : isDig c = true) :
    c ≠ 'n' ∧ c ≠ 't' ∧ c ≠ 'f' ∧ c ≠ '"' ∧ c ≠ '-' ∧ c ≠ '[' ∧ c ≠ ']' ∧ isWs c = false := by
  refine ⟨?_, ?_, ?_, ?_, ?_, ?_, ?_, ?_⟩
  · intro he; rw [he] at h; exact absurd h (by decide)
  · intro he; rw [he] at h; exact absurd h (by decide)
  · intro he; rw [he] at h; exact absurd h (by decide)
  · intro he; rw [he] at h; exact absurd h (by decide)
  · intro he; rw [he] at h; exact absurd h (by decide)
  · intro he; rw [he] at h; exact absurd h (by decide)
  · intro he; rw [he] at h; exact absurd h (by decide)
  · simp only [isWs, Bool.or_eq_false_iff, decide_eq_false_iff_not]
    refine ⟨⟨⟨?_, ?_⟩, ?_⟩, ?_⟩ <;> (intro he; rw [he] at h; exact absurd h (by decide))

theorem numSep_nondig {v : JValue} {c : Char} (h : isDig c = false) (t : List Char) :
    numSep v (c :: t) = true := by
  cases v <;> simp [numSep, numEnd, h]

theorem ser_head : ∀ v : JValue, ∃ c t, ser v = c :: t ∧ isWs c = false ∧ c ≠ ']'
  | .jnull => ⟨'n', _, rfl, by decide, by decide⟩
  | .jbool true => ⟨'t', _, rfl, by decide, by decide⟩
  | .jbool false => ⟨'f', _, rfl, by decide, by decide⟩
  | .jstr s => ⟨'"', _, rfl, by decide, by decide⟩
  | .jarr es => ⟨'[', _, rfl, by decide, by decide⟩
  | .jobj ms => ⟨'{', _, rfl, by decide, by decide⟩
  | .jnum i => by
    show ∃ c t, serNum i = c :: t ∧ isWs c = false ∧ c ≠ ']'
    rw [serNum]
    by_cases hi : i < 0
    · exact ⟨'-', _, by rw [if_pos hi], by decide, by decide⟩
    · rw [if_neg hi]
      obtain ⟨c, t, hct⟩ : ∃ c t, natChars i.toNat = c :: t := by
        cases hx : natChars i.toNat with
        | nil => exact absurd hx (natChars_ne_nil _)
        | cons a b => exact ⟨a, b, rfl⟩
      have hd := natChars_digits i.toNat c (by rw [hct]; simp)
      obtain ⟨_, _, _, _, _, _, h7, h8⟩ := isDig_dispatch hd
      exact ⟨c, t, hct, h8, h7⟩

theorem ser_len_pos (v : JValue) : 1 ≤ (ser v).length := by
  obtain ⟨c, t, hct, _, _⟩ := ser_head v
  rw [hct]
  simp

theorem serItemsRest_len_pos : ∀ es : List JValue, 1 ≤ (serItemsRest es).length
  | [] => by simp [serItemsRest]
  | v :: vs => by simp [serItemsRest]

theorem serFieldsRest_len_pos : ∀ ms : List (List Char × JValue), 1 ≤ (serFieldsRest ms).length
  | [] => by simp [serFieldsRest]
  | m :: ms => by simp [serFieldsRest]

theorem serField_len (k : List Char) (v : JValue) :
    (serField (k, v)).length = (escChars k).length + (ser v).length + 3 := by
  show ('"' :: (escChars k ++ ('"' :: ':' :: ser v))).length
    = (escChars k).length + (ser v).length + 3
  simp
  omega

theorem pv_null (f : Nat) (rest : List Char) :
    parseVal (f + 1) ('n' :: 'u' :: 'l' :: 'l' :: rest) = .ok (.jnull, rest) := by
  simp [parseVal, skipWs, isWs, expectChars]

theorem pv_true (f : Nat) (rest : List Char) :
    parseVal (f + 1) ('t' :: 'r' :: 'u' :: 'e' :: rest) = .ok (.jbool true, rest) := by
  simp [parseVal, skipWs, isWs, expectChars]

theorem pv_false (f : Nat) (rest : List Char) :
    parseVal (f + 1) ('f' :: 'a' :: 'l' :: 's' :: 'e' :: rest) = .ok (.jbool false, rest) := by
  simp [parseVal, skipWs, isWs, expectChars]

theorem pv_quote (f : Nat) (r : List Char) :
    parseVal (f + 1) ('"' :: r) = (match parseStrBody r with
      | .ok (cs, r2) => .ok (.jstr cs, r2)
      | .error e => .error e) := by
  simp [parseVal, skipWs, isWs]

theorem pv_minus (f : Nat) (r : List Char) :
    parseVal (f + 1) ('-' :: r) = parseNumFrom true r := by
  simp [parseVal, skipWs, isWs]

theorem pv_dig {c : Char} (h : isDig c = true) (f : Nat) (r : List Char) :
    parseVal (f + 1) (c :: r) = parseNumFrom false (c :: r) := by
  obtain ⟨h1, h2, h3, h4, h5, h6, _, h8⟩ := isDig_dispatch h
  simp only [parseVal]
  rw [skipWs_not _ h8]
  simp [h1, h2, h3, h4, h5, h6, h]

theorem pv_lbrack (f : Nat) (r : List Char) :
    parseVal (f + 1) ('[' :: r) = parseArrStart f r := by
  simp [parseVal, skipWs, isWs, (by decide : isDig '[' = false)]

theorem pv_lbrace (f : Nat) (r : List Char) :
    parseVal (f + 1) ('{' :: r) = parseObjStart f r := by
  simp [parseVal, skipWs, isWs, (by decide : isDig '{' = false)]

mutual
/-- Parsing inverts serialization: a serialized well-formed value parses
back to itself, leaving the remainder untouched (for numbers the
remainder must not start with a digit, since numbers are not
self-delimiting). -/
theorem rt_val : ∀ (v : JValue) (fuel : Nat) (rest : List Char),
    WFb v = true → 3 * (ser v).length < fuel → numSep v rest = true →
    parseVal fuel (ser v ++ rest) = .ok (v, rest)
  | .jnull, fuel, rest => by
    intro _ hf _
    obtain ⟨f, rfl⟩ : ∃ f, fuel = f + 1 := ⟨fuel - 1, by omega⟩
    exact pv_null f rest
  | .jbool true, fuel, rest => by
    intro _ hf _
    obtain ⟨f, rfl⟩ : ∃ f, fuel = f + 1 := ⟨fuel - 1, by omega⟩
    exact pv_true f rest
  | .jbool false, fuel, rest => by
    intro _ hf _
    obtain ⟨f, rfl⟩ : ∃ f, fuel = f + 1 := ⟨fuel - 1, by omega⟩
    exact pv_false f rest
  | .jnum i, fuel, rest => by
    intro _ hf hsep
    obtain ⟨f, rfl⟩ : ∃ f, fuel = f + 1 :=
      ⟨fuel - 1, by have := ser_len_pos (.jnum i); omega⟩
    have hnum : numEnd rest = true := by simpa [numSep] using hsep
    by_cases hi : i < 0
    · have hser : ser (.jnum i) = '-' :: natChars i.natAbs := by
        show serNum i = _
        rw [serNum, if_pos hi]
      rw [hser, List.cons_append, pv_minus, parseNumFrom_natChars true _ rest hnum]
      have hs : signedOf true i.natAbs = i := by
        show (if true = true then -(i.natAbs : Int) else (i.natAbs : Int)) = i
        rw [if_pos rfl]
        omega
      rw [hs]
    · have hser : ser (.jnum i) = natChars i.toNat := by
        show serNum i = _
        rw [serNum, if_neg hi]
      obtain ⟨c, t, hct⟩ : ∃ c t, natChars i.toNat = c :: t := by
        cases hx : natChars i.toNat with
        | nil => exact absurd hx (natChars_ne_nil _)
        | cons a b => exact ⟨a, b, rfl⟩
      have hd := natChars_digits i.toNat c (by rw [hct]; simp)
      rw [hser, hct, List.cons_append, pv_dig hd, ← List.cons_append, ← hct,
        parseNumFrom_natChars false _ rest hnum]
      have hs : signedOf false i.toNat = i := by
        show (if false = true then -(i.toNat : Int) else (i.toNat : Int)) = i
        rw [if_neg (by decide)]
        omega
      rw [hs]
  | .jstr s, fuel, rest => by
    intro _ hf _
    obtain ⟨f, rfl⟩ : ∃ f, fuel = f + 1 := ⟨fuel - 1, by have := ser_len_pos (.jstr s); omega⟩
    have hser : ser (.jstr s) ++ rest = '"' :: (escChars s ++ ('"' :: rest)) := by
      show ('"' :: (escChars s ++ ['"'])) ++ rest = _
      simp
    rw [hser, pv_quote, parseStrBody_escChars]
  | .jarr [], fuel, rest => by
    intro _ hf _
    have hl : (ser (JValue.jarr [])).length = 2 := rfl
    rw [hl] at hf
    obtain ⟨f, rfl⟩ : ∃ f, fuel = f + 1 := ⟨fuel - 1, by omega⟩
    obtain ⟨f2, rfl⟩ : ∃ f2, f = f2 + 1 := ⟨f - 1, by omega⟩
    show parseVal (f2 + 1 + 1) ('[' :: ']' :: rest) = .ok (.jarr [], rest)
    rw [pv_lbrack]
    simp [parseArrStart, skipWs, isWs]
  | .jarr (e :: es), fuel, rest => by
    intro hwf hf _
    have hwe : WFb e = true ∧ WFbItems es = true := by
      have : WFbItems (e :: es) = true := hwf
      simpa [WFbItems, Bool.and_eq_true] using this
    have hl : (ser (JValue.jarr (e :: es))).length
        = 1 + ((ser e).length + (serItemsRest es).length) := by
      show ('[' :: (ser e ++ serItemsRest es)).length = _
      simp
      omega
    rw [hl] at hf
    obtain ⟨f, rfl⟩ : ∃ f, fuel = f + 1 := ⟨fuel - 1, by omega⟩
    obtain ⟨f2, rfl⟩ : ∃ f2, f = f2 + 1 :=
      ⟨f - 1, by have := ser_len_pos e; have := serItemsRest_len_pos es; omega⟩
    have hser : ser (.jarr (e :: es)) ++ rest
        = '[' :: (ser e ++ (serItemsRest es ++ rest)) := by
      show ('[' :: (ser e ++ serItemsRest es)) ++ rest = _
      simp
    rw [hser, pv_lbrack]
    obtain ⟨c, t, hct, hcw, hcb⟩ := ser_head e
    simp only [parseArrStart]
    rw [hct, List.cons_append, skipWs_not _ hcw]
    simp only [if_neg hcb]
    rw [← List.cons_append, ← hct,
      rt_items e es f2 rest hwe.1 hwe.2
        (by have := ser_len_pos e; have := serItemsRest_len_pos es; simp; omega)]
  | .jobj [], fuel, rest => by
    intro _ hf _
    have hl : (ser (JValue.jobj [])).length = 2 := rfl
    rw [hl] at hf
    obtain ⟨f, rfl⟩ : ∃ f, fuel = f + 1 := ⟨fuel - 1, by omega⟩
    obtain ⟨f2, rfl⟩ : ∃ f2, f = f2 + 1 := ⟨f - 1, by omega⟩
    show parseVal (f2 + 1 + 1) ('{' :: '}' :: rest) = .ok (.jobj [], rest)
    rw [pv_lbrace]
    simp [parseObjStart, skipWs, isWs]
  | .jobj ((k, v) :: ms), fuel, rest => by
    intro hwf hf _
    have hwf2 : sortedKeysB ((k, v) :: ms) = true ∧ WFb v = true ∧ WFbFields ms = true := by
      have h1 : (sortedKeysB ((k, v) :: ms) && WFbFields ((k, v) :: ms)) = true := hwf
      rw [Bool.and_eq_true] at h1
      have h2 : WFbFields ((k, v) :: ms) = (WFb v && WFbFields ms) := rfl
      rw [h2, Bool.and_eq_true] at h1
      exact ⟨h1.1, h1.2.1, h1.2.2⟩
    have hsk : SKeys ((k, v) :: ms) := (sortedKeysB_iff _).mp hwf2.1
    have hl : (ser (JValue.jobj ((k, v) :: ms))).length
        = 1 + ((escChars k).length + (ser v).length + 3 + (serFieldsRest ms).length) := by
      show ('{' :: (serField (k, v) ++ serFieldsRest ms)).length = _
      simp [serField_len]
      omega
    rw [hl] at hf
    obtain ⟨f, rfl⟩ : ∃ f, fuel = f + 1 := ⟨fuel - 1, by omega⟩
    obtain ⟨f2, rfl⟩ : ∃ f2, f = f2 + 1 := ⟨f - 1, by omega⟩
    have hser : ser (.jobj ((k, v) :: ms)) ++ rest
        = '{' :: ('"' :: (escChars k ++ ('"' :: ':' :: (ser v ++ (serFieldsRest ms ++ rest))))) := by
      show ('{' :: (('"' :: (escChars k ++ ('"' :: ':' :: ser v))) ++ serFieldsRest ms)) ++ rest = _
      simp
    rw [hser, pv_lbrace]
    simp only [parseObjStart]
    rw [skipWs_not _ (by decide)]
    simp only [if_neg (by decide : ¬ ('"' : Char) = '}'), if_pos rfl]
    rw [rt_fields k v ms [] f2 rest hwf2.2.1 hwf2.2.2 (by simpa using hsk) (by omega)]
    simp
termination_by v _ _ => sizeOf v
decreasing_by all_goals (simp_wf; omega)

/-- Parsing the serialized elements of a nonempty array recovers them. -/
theorem rt_items : ∀ (e : JValue) (es : List JValue) (fuel : Nat) (rest : List Char),
    WFb e = true → WFbItems es = true →
    3 * ((ser e).length + (serItemsRest es).length) < fuel →
    parseElems fuel (ser e ++ (serItemsRest es ++ rest)) = .ok (e :: es, rest)
  | e, es, fuel, rest => by
    intro hwe hwes hf
    obtain ⟨f, rfl⟩ : ∃ f, fuel = f + 1 :=
      ⟨fuel - 1, by have := ser_len_pos e; have := serItemsRest_len_pos es; omega⟩
    have hsep : numSep e (serItemsRest es ++ rest) = true := by
      cases es with
      | nil => exact numSep_nondig (by decide) _
      | cons x xs => exact numSep_nondig (by decide) _
    have hv := rt_val e f (serItemsRest es ++ rest) hwe
      (by have := serItemsRest_len_pos es; omega) hsep
    cases es with
    | nil =>
      have hser : serItemsRest ([] : List JValue) ++ rest = ']' :: rest := rfl
      rw [hser] at hv
      rw [hser]
      simp only [parseElems, hv]
      rw [skipWs_not _ (by decide)]
      simp
    | cons x xs =>
      have hwx : WFb x = true ∧ WFbItems xs = true := by
        have : (WFb x && WFbItems xs) = true := hwes
        simpa [Bool.and_eq_true] using this
      have hser : serItemsRest (x :: xs) ++ rest
          = ',' :: (ser x ++ (serItemsRest xs ++ rest)) := by
        show (',' :: (ser x ++ serItemsRest xs)) ++ rest = _
        simp
      have hls : (serItemsRest (x :: xs)).length
          = 1 + ((ser x).length + (serItemsRest xs).length) := by
        show (',' :: (ser x ++ serItemsRest xs)).length = _
        simp
        omega
      rw [hls] at hf
      have hx := rt_items x xs f rest hwx.1 hwx.2 (by omega)
      rw [hser] at hv
      rw [hser]
      simp only [parseElems, hv]
      rw [skipWs_not _ (by decide)]
      simp [hx]
termination_by e es _ _ => sizeOf e + sizeOf es + 1
decreasing_by all_goals (simp_wf; omega)

/-- Parsing the serialized fields of a nonempty object, continuing an
accumulated prefix, recovers the whole sorted field list. -/
theorem rt_fields : ∀ (k : List Char) (v : JValue) (ms : List (List Char × JValue))
    (acc : List (List Char × JValue)) (fuel : Nat) (rest : List Char),
    WFb v = true → WFbFields ms = true →
    SKeys (acc ++ (k, v) :: ms) →
    3 * ((escChars k).length + (ser v).length + (serFieldsRest ms).length + 3) < fuel →
    parseFields fuel acc (escChars k ++ ('"' :: ':' :: (ser v ++ (serFieldsRest ms ++ rest))))
      = .ok (.jobj (acc ++ (k, v) :: ms), rest)
  | k, v, ms, acc, fuel, rest => by
    intro hwv hwms hsk hf
    obtain ⟨f, rfl⟩ : ∃ f, fuel = f + 1 := ⟨fuel - 1, by omega⟩
    have hsep : numSep v (serFieldsRest ms ++ rest) = true := by
      cases ms with
      | nil => exact numSep_nondig (by decide) _
      | cons x xs => exact numSep_nondig (by decide) _
    have hv := rt_val v f (serFieldsRest ms ++ rest) hwv
      (by have := serFieldsRest_len_pos ms; omega) hsep
    have hacc : ∀ kv ∈ acc, keyLt kv.1 k = true := by
      intro kv hkv
      have := (List.pairwise_append.mp hsk).2.2 kv hkv (k, v) (by simp)
      simpa using this
    have hins : mapInsert k v acc = acc ++ [(k, v)] := mapInsert_append_gt k v acc hacc
    cases ms with
    | nil =>
      have h0 : serFieldsRest ([] : List (List Char × JValue)) ++ rest = '}' :: rest := rfl
      rw [h0] at hv
      rw [h0]
      have hks := parseStrBody_escChars k (':' :: (ser v ++ ('}' :: rest)))
      simp only [parseFields, hks]
      rw [skipWs_not _ (by decide)]
      simp only [hv]
      rw [skipWs_not _ (by decide)]
      simp [hins]
    | cons m2 ms2 =>
      obtain ⟨k2, v2⟩ := m2
      have hwx : WFb v2 = true ∧ WFbFields ms2 = true := by
        have : (WFb v2 && WFbFields ms2) = true := hwms
        simpa [Bool.and_eq_true] using this
      have hser : serFieldsRest ((k2, v2) :: ms2) ++ rest
          = ',' :: ('"' :: (escChars k2 ++ ('"' :: ':' :: (ser v2 ++ (serFieldsRest ms2 ++ rest))))) := by
        show (',' :: (('"' :: (escChars k2 ++ ('"' :: ':' :: ser v2))) ++ serFieldsRest ms2)) ++ rest = _
        simp
      have hlen : (serFieldsRest ((k2, v2) :: ms2)).length
          = 1 + ((escChars k2).length + (ser v2).length + 3 + (serFieldsRest ms2).length) := by
        show (',' :: (serField (k2, v2) ++ serFieldsRest ms2)).length = _
        simp [serField_len]
        omega
      rw [hlen] at hf
      have hsk2 : SKeys ((acc ++ [(k, v)]) ++ (k2, v2) :: ms2) := by
        simpa using hsk
      have hrec := rt_fields k2 v2 ms2 (mapInsert k v acc) f rest hwx.1 hwx.2
        (by rw [hins]; exact hsk2) (by omega)
      rw [hser] at hv
      rw [hser]
      have hks := parseStrBody_escChars k
        (':' :: (ser v ++ (',' :: ('"' :: (escChars k2 ++ ('"' :: ':' :: (ser v2 ++ (serFieldsRest ms2 ++ rest))))))))
      simp only [parseFields, hks]
      rw [skipWs_not _ (by decide)]
      simp only [hv]
      rw [skipWs_not _ (by decide)]
      simp only [if_pos rfl]
      rw [skipWs_not _ (by decide)]
      rw [hins] at hrec
      rw [hins]
      simp [hrec]
termination_by _ v ms _ _ _ => sizeOf v + sizeOf ms + 1
decreasing_by all_goals (simp_wf; omega)
end

theorem numSep_nil (v : JValue) : numSep v [] = true := by
  cases v <;> simp [numSep, numEnd]

/-- A serialized well-formed value deserializes to itself through the
transport's EOF-aware helper, consuming the whole stream: the
serialization is exactly one JSON value. -/
theorem read_value_from_json_ser (v : JValue) (h : WFb v = true) :
    read_value_from_json (ser v) = .ok (v, []) := by
  have hrt := rt_val v (3 * (ser v).length + 1) [] h (by omega) (numSep_nil v)
  rw [List.append_nil] at hrt
  rw [read_value_from_json, hrt]

theorem value_for_state_eq (st : JTXState) (id : List Char) :
    value_for_state st id = .jobj
      [((("id").toList), .jstr id),
       ((("jsonrpc").toList), .jstr (("2.0").toList)),
       ((("method").toList), .jstr st.method),
       ((("params").toList), st.params)] := rfl

theorem wfb_jobj (m : List (List Char × JValue)) :
    WFb (.jobj m) = (sortedKeysB m && WFbFields m) := rfl

theorem wfb_fields_cons (kv : List Char × JValue) (ms : List (List Char × JValue)) :
    WFbFields (kv :: ms) = (WFb kv.2 && WFbFields ms) := rfl

theorem wfb_items_cons (v : JValue) (vs : List JValue) :
    WFbItems (v :: vs) = (WFb v && WFbItems vs) := rfl

theorem wf_value_for_state (st : JTXState) (id : List Char) (h : WFb st.params = true) :
    WFb (value_for_state st id) = true := by
  rw [value_for_state_eq, wfb_jobj, Bool.and_eq_true]
  constructor
  · show (keyLt (("id").toList) (("jsonrpc").toList)
      && (keyLt (("jsonrpc").toList) (("method").toList)
      && (keyLt (("method").toList) (("params").toList) && true))) = true
    decide
  · show (true && (true && (true && (WFb st.params && true)))) = true
    simp [h]

theorem jGet_value_for_state_method (st : JTXState) (id : List Char) :
    jGet (value_for_state st id) (("method").toList) = some (.jstr st.method) := rfl

theorem jGet_value_for_state_jsonrpc (st : JTXState) (id : List Char) :
    jGet (value_for_state st id) (("jsonrpc").toList) = some (.jstr (("2.0").toList)) := rfl

theorem jGet_value_for_state_params (st : JTXState) (id : List Char) :
    jGet (value_for_state st id) (("params").toList) = some st.params := rfl

theorem jGet_value_for_state_id (st : JTXState) (id : List Char) :
    jGet (value_for_state st id) (("id").toList) = some (.jstr id) := rfl

theorem WFbFields_iff : ∀ ms : List (List Char × JValue),
    WFbFields ms = true ↔ ∀ kv ∈ ms, WFb kv.2 = true
  | [] => by simp [WFbFields]
  | kv :: ms => by
    rw [wfb_fields_cons, Bool.and_eq_true, WFbFields_iff ms]
    constructor
    · rintro ⟨h1, h2⟩ x hx
      rcases List.mem_cons.mp hx with hx | hx
      · rw [hx]; exact h1
      · exact h2 x hx
    · intro h
      exact ⟨h kv (by simp), fun x hx => h x (List.mem_cons_of_mem _ hx)⟩

theorem skeys_foldl_mapInsert :
    ∀ (ps : List (List Char × JValue)) (m : List (List Char × JValue)), SKeys m →
      SKeys (ps.foldl (fun acc kv => mapInsert kv.1 kv.2 acc) m)
  | [], _, h => h
  | kv :: ps, m, h =>
    skeys_foldl_mapInsert ps (mapInsert kv.1 kv.2 m) (skeys_mapInsert _ _ m h)

theorem mem_foldl_mapInsert :
    ∀ (ps : List (List Char × JValue)) (m : List (List Char × JValue)) (kv : List Char × JValue),
      kv ∈ ps.foldl (fun acc x => mapInsert x.1 x.2 acc) m → kv ∈ m ∨ ∃ x ∈ ps, kv.2 = x.2
  | [], _, kv, h => Or.inl h
  | x :: ps, m, kv, h => by
    rcases mem_foldl_mapInsert ps (mapInsert x.1 x.2 m) kv h with hx | hx
    · rcases mem_mapInsert kv x.1 x.2 m hx with hy | hy
      · exact Or.inr ⟨x, by simp, by rw [hy]⟩
      · exact Or.inl hy
    · obtain ⟨y, hy1, hy2⟩ := hx
      exact Or.inr ⟨y, List.mem_cons_of_mem _ hy1, hy2⟩

theorem skeys_renderParams (ps : List (List Char × JValue)) : SKeys (renderParams ps) :=
  skeys_foldl_mapInsert ps [] (by simp [SKeys])

theorem wf_renderParams (ps : List (List Char × JValue))
    (h : ∀ kv ∈ ps, WFb kv.2 = true) : WFb (.jobj (renderParams ps)) = true := by
  rw [wfb_jobj, Bool.and_eq_true]
  refine ⟨(sortedKeysB_iff _).mpr (skeys_renderParams ps), ?_⟩
  rw [WFbFields_iff]
  intro kv hkv
  rcases mem_foldl_mapInsert ps [] kv hkv with hx | hx
  · simp at hx
  · obtain ⟨x, hx1, hx2⟩ := hx
    rw [hx2]
    exact h x hx1

/-- Folding the parameter insertions over any permutation of a map with
pairwise distinct names yields the same rendered object: insertion into a
`BTreeMap` is order-independent for distinct keys. -/
theorem renderParams_perm (P Q : List (List Char × JValue))
    (hnd : (P.map Prod.fst).Nodup) (hperm : Q.Perm P) :
    Q.foldl (fun acc kv => mapInsert kv.1 kv.2 acc) [] = renderParams P := by
  have hpw : P.Pairwise (fun a b => a.1 ≠ b.1) := by
    have h2 := hnd
    rw [List.Nodup, List.pairwise_map] at h2
    exact h2
  have hcomm : ∀ x ∈ Q, ∀ y ∈ Q, ∀ z : List (List Char × JValue),
      mapInsert y.1 y.2 (mapInsert x.1 x.2 z) = mapInsert x.1 x.2 (mapInsert y.1 y.2 z) := by
    intro x hx y hy z
    by_cases hxy : x.1 = y.1
    · by_cases hval : x = y
      · rw [hval]
      · have hne : x ≠ y := hval
        have hforall := List.Pairwise.forall (l := P) (R := fun a b => a.1 ≠ b.1)
          (fun a b hab => (Ne.symm hab)) hpw
        have := hforall (hperm.mem_iff.mp hx) (hperm.mem_iff.mp hy) hne
        exact absurd hxy this
    · exact mapInsert_comm y.1 x.1 (Ne.symm hxy) y.2 x.2 z
  exact hperm.foldl_eq' hcomm []

theorem addParams_jobj : ∀ (ps : List (List Char × JValue)) (mth : List Char)
    (l : List (List Char × JValue)),
    addParams ps ⟨mth, .jobj l⟩
      = some ⟨mth, .jobj (ps.foldl (fun acc kv => mapInsert kv.1 kv.2 acc) l)⟩
  | [], mth, l => rfl
  | kv :: ps, mth, l => by
    show addParams ps ⟨mth, .jobj (mapInsert kv.1 kv.2 l)⟩ = _
    rw [addParams_jobj ps mth (mapInsert kv.1 kv.2 l), List.foldl_cons]

theorem isHexLower_hexDigitChar {d : Nat} (h : d < 16) : isHexLower (hexDigitChar d) = true := by
  interval_cases d <;> decide

theorem hexLower_div (b : Fin 256) : isHexLower (hexDigitChar (b.val / 16)) = true :=
  isHexLower_hexDigitChar (by have := b.isLt; omega)

theorem hexLower_mod (b : Fin 256) : isHexLower (hexDigitChar (b.val % 16)) = true :=
  isHexLower_hexDigitChar (by omega)

/-- The rendered form of any UUID satisfies the canonical lowercase
hyphenated grammar. -/
theorem uuid_canon (u : Uuid) : isCanonUuid (uuidRender u) = true := by
  simp [uuidRender, hexPair, isCanonUuid, hexRun, dashRun, hexLower_div, hexLower_mod,
    List.append_assoc]

theorem rx_read_param_state {α : Type} (dec : JValue → Option α) (name : List Char)
    (st : JRXState) : (rx_read_param dec name st).2 = st := rfl

theorem foldl_read_params (names : List (List Char)) (st : JRXState) :
    names.foldl (fun s n => (rx_read_param some n s).2) st = st := by
  induction names with
  | nil => rfl
  | cons n ns ih => exact ih

/-- C10: every TX state created by `begin_call` and then mutated only by
`add_param` calls keeps an object-typed `params`, so the modelled
`as_object_mut().unwrap()` inside `add_param` never panics: the whole
fold of `add_param` over any parameter list succeeds. -/
theorem c10_add_param_never_panics (M : MethodId) (ps : List (List Char × JValue)) :
    ∃ st, addParams ps (begin_call M) = some st ∧ ∃ l, st.params = .jobj l := by
  rw [show begin_call M = ⟨M.name, .jobj []⟩ from rfl, addParams_jobj]
  exact ⟨_, rfl, _, rfl⟩

/-- C9: the async client transport produces the same TX states and the
same request bytes as the blocking transport: `tx_begin_call` and
`tx_add_param` are the shared `begin_call`/`add_param`, and the async
`tx_finalize` (which serializes the full request to an in-memory buffer
and then writes the buffer in one operation) changes the channel exactly
as the blocking `tx_finalize` does for the same generated id. -/
theorem c9_async_same_wire :
    (∀ m : MethodId, async_tx_begin_call m = begin_call m) ∧
    (∀ (n : List Char) (v : JValue) (st : JTXState),
      async_tx_add_param n v st = add_param n v st) ∧
    (∀ (st : JTXState) (id : List Char) (ch : Channel),
      async_tx_finalize st id ch = tx_finalize st id ch) :=
  ⟨fun _ => rfl, fun _ _ _ => rfl, fun _ _ _ => rfl⟩

/-- C7: `rx_read_param` does not modify the RX state, so reading the same
parameter twice in succession on the same state returns equal results. -/
theorem c7_read_param_idempotent {α : Type} (dec : JValue → Option α)
    (name : List Char) (st : JRXState) :
    (rx_read_param dec name st).2 = st ∧
    (rx_read_param dec name (rx_read_param dec name st).2).1
      = (rx_read_param dec name st).1 :=
  ⟨rfl, rfl⟩

/-- C5: `rx_read_param` fails with `SerializationError` exactly when the
held JSON has no `"params"` field, or `"params"` has no key `name`, or
the decode of `params[name]` fails; otherwise it returns the decoded
value of `params[name]`. -/
theorem c5_read_param_errors {α : Type} (dec : JValue → Option α)
    (name : List Char) (st : JRXState) :
    (jGet st.json (("params").toList) = none →
      (rx_read_param dec name st).1
        = .error ⟨.serializationError, ("json is not expected object").toList⟩) ∧
    (∀ pv, jGet st.json (("params").toList) = some pv → jGet pv name = none →
      (rx_read_param dec name st).1
        = .error ⟨.serializationError, ("parameters do not contain ").toList ++ name⟩) ∧
    (∀ pv v, jGet st.json (("params").toList) = some pv → jGet pv name = some v →
      dec v = none →
      (rx_read_param dec name st).1 = .error ⟨.serializationError, convertMsg⟩) ∧
    (∀ pv v a, jGet st.json (("params").toList) = some pv → jGet pv name = some v →
      dec v = some a → (rx_read_param dec name st).1 = .ok a) := by
  refine ⟨?_, ?_, ?_, ?_⟩
  · intro h
    simp only [rx_read_param, h]
  · intro pv h1 h2
    simp only [rx_read_param, h1, h2]
  · intro pv v h1 h2 h3
    simp only [rx_read_param, h1, h2, h3]
  · intro pv v a h1 h2 h3
    simp only [rx_read_param, h1, h2, h3]

/-- Witness for C5 at a concrete request: the parameter decodes. -/
theorem c5_witness :
    (rx_read_param some (("a").toList)
      ⟨.jobj [((("params").toList), .jobj [((("a").toList), .jnull)])]⟩).1
      = .ok JValue.jnull :=
  (c5_read_param_errors some (("a").toList) _).2.2.2 _ _ _ rfl rfl rfl

/-- C4: the value-level part of `rx_begin_call` returns the name-bearing
`PartialMethodId` with the full value exactly when `"method"` holds a
string; a missing `"method"` (including every non-object) or a
non-string `"method"` is a `SerializationError`; the numeric-tag variant
is never produced. -/
theorem c4_begin_call_method (v : JValue) :
    (∀ s, jGet v (("method").toList) = some (.jstr s) →
      rx_begin_call_value v = .ok (.Name s, ⟨v⟩)) ∧
    (jGet v (("method").toList) = none →
      rx_begin_call_value v
        = .error ⟨.serializationError, ("json is not expected object").toList⟩) ∧
    (∀ mv, jGet v (("method").toList) = some mv → asStr mv = none →
      rx_begin_call_value v
        = .error ⟨.serializationError, ("json method was not string").toList⟩) ∧
    (∀ pm st, rx_begin_call_value v = .ok (pm, st) →
      st = ⟨v⟩ ∧ ∃ s, pm = .Name s ∧ jGet v (("method").toList) = some (.jstr s)) := by
  refine ⟨?_, ?_, ?_, ?_⟩
  · intro s h
    simp only [rx_begin_call_value, h, asStr]
  · intro h
    simp only [rx_begin_call_value, h]
  · intro mv h1 h2
    simp only [rx_begin_call_value, h1, h2]
  · intro pm st h
    rw [rx_begin_call_value] at h
    cases hm : jGet v (("method").toList) with
    | none => rw [hm] at h; exact absurd h (by simp)
    | some mv =>
      rw [hm] at h
      cases mv with
      | jnull => exact absurd h (by simp [asStr])
      | jbool b => exact absurd h (by simp [asStr])
      | jnum i => exact absurd h (by simp [asStr])
      | jarr es => exact absurd h (by simp [asStr])
      | jobj ms => exact absurd h (by simp [asStr])
      | jstr s2 =>
        obtain ⟨h4, h5⟩ := (Prod.mk.injEq _ _ _ _).mp (Except.ok.inj h)
        exact ⟨h5.symm, s2, h4.symm, rfl⟩

/-- Witness for C4 at a concrete request object carrying a string
method. -/
theorem c4_witness :
    rx_begin_call_value (.jobj [((("method").toList), .jstr (("add").toList))])
      = .ok (.Name (("add").toList), ⟨.jobj [((("method").toList), .jstr (("add").toList))]⟩) :=
  (c4_begin_call_method _).1 _ rfl

theorem skipWs_all_ws : ∀ s : List Char, s.all isWs = true → skipWs s = []
  | [], _ => rfl
  | c :: r, h => by
    simp only [List.all_cons, Bool.and_eq_true] at h
    simp [skipWs, h.1, skipWs_all_ws r h.2]

/-- The counterexample refuting C6 as stated: the client's
`rx_response` on a cleanly closed channel returns a `TransportEOF`
error, because it reads through the same EOF-aware helper as the
server's `rx_begin_call`. -/
theorem c6_cx_rx_response_eof :
    rx_response ([] : List Char) = .error ⟨.transportEOF, eofMsg⟩ ∧
    RPCErrorKind.transportEOF ≠ RPCErrorKind.serializationError :=
  ⟨rfl, by decide⟩

/-- C6 amended: `TransportEOF` is produced exactly by the operations
that read a JSON value from the channel — the server's `rx_begin_call`
and the client's `rx_response`; `rx_read_param` only ever fails with
`SerializationError`, and the write-side operations are channel
functions that return no error at all. -/
theorem c6_amended_eof_only_from_reads :
    (∀ (α : Type) (dec : JValue → Option α) (name : List Char) (st : JRXState) (e : RPCError),
      (rx_read_param dec name st).1 = .error e → e.kind = .serializationError) ∧
    rx_begin_call ([] : List Char) = .error ⟨.transportEOF, eofMsg⟩ ∧
    rx_response ([] : List Char) = .error ⟨.transportEOF, eofMsg⟩ := by
  refine ⟨?_, rfl, rfl⟩
  intro α dec name st e h
  cases hp : jGet st.json (("params").toList) with
  | none =>
    have h1 : (rx_read_param dec name st).1
        = .error ⟨.serializationError, ("json is not expected object").toList⟩ := by
      simp only [rx_read_param, hp]
    rw [h1] at h
    rw [← Except.error.inj h]
  | some pv =>
    cases hn : jGet pv name with
    | none =>
      have h1 : (rx_read_param dec name st).1
          = .error ⟨.serializationError, ("parameters do not contain ").toList ++ name⟩ := by
        simp only [rx_read_param, hp, hn]
      rw [h1] at h
      rw [← Except.error.inj h]
    | some v =>
      cases hd : dec v with
      | none =>
        have h1 : (rx_read_param dec name st).1 = .error ⟨.serializationError, convertMsg⟩ := by
          simp only [rx_read_param, hp, hn, hd]
        rw [h1] at h
        rw [← Except.error.inj h]
      | some a =>
        have h1 : (rx_read_param dec name st).1 = .ok a := by
          simp only [rx_read_param, hp, hn, hd]
        rw [h1] at h
        exact absurd h (by simp)

/-- Witness for the amended C6: a concrete failing `rx_read_param`
carries the `SerializationError` kind. -/
theorem c6_amended_witness :
    (⟨.serializationError, ("json is not expected object").toList⟩ : RPCError).kind
      = .serializationError :=
  c6_amended_eof_only_from_reads.1 JValue (fun _ => none) (("x").toList) ⟨.jnull⟩ _ rfl

/-- The counterexample refuting C3 as stated: on the stream that ends in
the middle of a value (the claim's own example bytes), the helper
returns `TransportEOF`, not `SerializationError`, because `serde_json`
classifies every premature end of input as `Category::Eof`. -/
theorem c3_cx_midvalue_eof :
    read_value_from_json c3Input = .error ⟨.transportEOF, eofMsg⟩ ∧
    RPCErrorKind.transportEOF ≠ RPCErrorKind.serializationError :=
  ⟨rfl, by decide⟩

/-- C3 amended: a stream that ends before any token of a value (all
whitespace, including empty) yields `TransportEOF`; a stream that ends
mid-value — such as the claim's own truncated request — likewise yields
`TransportEOF`; and in general the helper surfaces `TransportEOF`
exactly for the parser's end-of-input codes and `SerializationError`
for every other parse failure. -/
theorem c3_amended_eof_classification :
    (∀ s : List Char, s.all isWs = true →
      read_value_from_json s = .error ⟨.transportEOF, eofMsg⟩) ∧
    (∀ (s : List Char) (pe : PErr), parseVal (3 * s.length + 1) s = .error pe →
      read_value_from_json s
        = .error (if isEofCode pe then ⟨.transportEOF, eofMsg⟩
            else ⟨.serializationError, convertMsg⟩)) ∧
    read_value_from_json c3Input = .error ⟨.transportEOF, eofMsg⟩ := by
  refine ⟨?_, ?_, rfl⟩
  · intro s hws
    have h0 : parseVal (3 * s.length + 1) s = .error .eofValue := by
      simp only [parseVal, skipWs_all_ws s hws]
    rw [read_value_from_json, h0]
    rfl
  · intro s pe h
    rw [read_value_from_json, h]
    cases hc : isEofCode pe <;> simp [hc]

/-- Witness for the amended C3 at the empty stream. -/
theorem c3_amended_witness :
    ([] : List Char).all isWs = true ∧
      read_value_from_json ([] : List Char) = .error ⟨.transportEOF, eofMsg⟩ :=
  ⟨rfl, c3_amended_eof_classification.1 [] rfl⟩

/-- C8: a call with zero `add_param` invocations — `begin_call`
immediately followed by `tx_finalize` — writes exactly one JSON value
(and flushes), and that value's `"params"` field is the empty JSON
object. -/
theorem c8_zero_params (M : MethodId) (u : Uuid) (ch : Channel) :
    tx_finalize (begin_call M) (uuidRender u) ch
      = { sent := ch.sent ++ ser (value_for_state (begin_call M) (uuidRender u)),
          flushes := ch.flushes + 1 } ∧
    read_value_from_json (ser (value_for_state (begin_call M) (uuidRender u)))
      = .ok (value_for_state (begin_call M) (uuidRender u), []) ∧
    jGet (value_for_state (begin_call M) (uuidRender u)) (("params").toList)
      = some (.jobj []) := by
  refine ⟨rfl, ?_, rfl⟩
  exact read_value_from_json_ser _ (wf_value_for_state _ _ (by rfl))

/-- C2: over one channel, the composition client `tx_finalize` → server
`rx_begin_call` → any sequence of server `rx_read_param`s → server
`tx_response v` → client `rx_response` delivers at the client exactly the
value `v`, for every codec-compatible (well-formed) `v`. -/
theorem c2_round_trip (txst : JTXState) (id : List Char) (names : List (List Char))
    (v : JValue) (hp : WFb txst.params = true) (hv : WFb v = true) :
    round_trip txst id names v = .ok v := by
  have hreq := read_value_from_json_ser (value_for_state txst id)
    (wf_value_for_state txst id hp)
  have hbc : rx_begin_call (ser (value_for_state txst id))
      = .ok ((.Name txst.method, ⟨value_for_state txst id⟩), []) := by
    rw [rx_begin_call, hreq]
    rfl
  have hresp : rx_response (ser v) = .ok (v, []) := read_value_from_json_ser v hv
  have hsent1 : (tx_finalize txst id { sent := [], flushes := 0 } : Channel).sent
      = ser (value_for_state txst id) := rfl
  have hsent2 : (tx_response v { sent := [], flushes := 0 } : Channel).sent = ser v := rfl
  rw [round_trip]
  simp only [hsent1, hsent2, hbc, hresp]

/-- Witness for C2 at a concrete call and response value. -/
theorem c2_witness :
    round_trip ⟨(("add").toList), .jobj []⟩ (("id0").toList) [(("a").toList)]
        (.jstr (("ok").toList))
      = .ok (.jstr (("ok").toList)) :=
  c2_round_trip _ _ _ _ (by decide) (by decide)

/-- C1: for every method, every parameter map with distinct names, and
every insertion order, the client sequence `begin_call`, `add_param` for
each entry, `tx_finalize` writes exactly one JSON value to the channel
and flushes it; the decoded value is an object with `"jsonrpc" = "2.0"`,
`"method"` the method's name, `"params"` the map rendered as a by-name
JSON object (independent of the insertion order), and `"id"` a string in
the canonical lowercase hyphenated UUID grammar. -/
theorem c1_request_envelope (M : MethodId) (P Q : List (List Char × JValue)) (u : Uuid)
    (ch : Channel) (hnd : (P.map Prod.fst).Nodup) (hperm : Q.Perm P)
    (hwf : ∀ kv ∈ P, WFb kv.2 = true) :
    ∃ st, addParams Q (begin_call M) = some st ∧
      st.method = M.name ∧
      tx_finalize st (uuidRender u) ch
        = { sent := ch.sent ++ ser (value_for_state st (uuidRender u)),
            flushes := ch.flushes + 1 } ∧
      read_value_from_json (ser (value_for_state st (uuidRender u)))
        = .ok (value_for_state st (uuidRender u), []) ∧
      jGet (value_for_state st (uuidRender u)) (("jsonrpc").toList)
        = some (.jstr (("2.0").toList)) ∧
      jGet (value_for_state st (uuidRender u)) (("method").toList)
        = some (.jstr M.name) ∧
      jGet (value_for_state st (uuidRender u)) (("params").toList)
        = some (.jobj (renderParams P)) ∧
      jGet (value_for_state st (uuidRender u)) (("id").toList)
        = some (.jstr (uuidRender u)) ∧
      isCanonUuid (uuidRender u) = true := by
  refine ⟨⟨M.name, .jobj (renderParams P)⟩, ?_, rfl, rfl, ?_, rfl, rfl, rfl, rfl, uuid_canon u⟩
  · show addParams Q ⟨M.name, .jobj []⟩ = _
    rw [addParams_jobj, renderParams_perm P Q hnd hperm]
  · exact read_value_from_json_ser _ (wf_value_for_state _ _ (wf_renderParams P hwf))

/-- Witness for C1 at a concrete two-parameter call added in reversed
order. -/
theorem c1_witness :
    (([((("a").toList), JValue.jnull), ((("b").toList), JValue.jbool true)].map
      Prod.fst).Nodup) ∧
    (∃ st, addParams [((("b").toList), JValue.jbool true), ((("a").toList), JValue.jnull)]
        (begin_call ⟨(("add").toList), 0⟩) = some st ∧
      st.method = (("add").toList) ∧
      tx_finalize st (uuidRender (fun _ => 0)) ⟨[], 0⟩
        = { sent := [] ++ ser (value_for_state st (uuidRender (fun _ => 0))),
            flushes := 0 + 1 } ∧
      read_value_from_json (ser (value_for_state st (uuidRender (fun _ => 0))))
        = .ok (value_for_state st (uuidRender (fun _ => 0)), []) ∧
      jGet (value_for_state st (uuidRender (fun _ => 0))) (("jsonrpc").toList)
        = some (.jstr (("2.0").toList)) ∧
      jGet (value_for_state st (uuidRender (fun _ => 0))) (("method").toList)
        = some (.jstr (("add").toList)) ∧
      jGet (value_for_state st (uuidRender (fun _ => 0))) (("params").toList)
        = some (.jobj (renderParams
            [((("a").toList), JValue.jnull), ((("b").toList), JValue.jbool true)])) ∧
      jGet (value_for_state st (uuidRender (fun _ => 0))) (("id").toList)
        = some (.jstr (uuidRender (fun _ => 0))) ∧
      isCanonUuid (uuidRender (fun _ => 0)) = true) :=
  ⟨by decide,
   c1_request_envelope ⟨(("add").toList), 0⟩
     [((("a").toList), JValue.jnull), ((("b").toList), JValue.jbool true)]
     [((("b").toList), JValue.jbool true), ((("a").toList), JValue.jnull)]
     (fun _ => 0) ⟨[], 0⟩ (by decide) (List.Perm.swap _ _ _) (by decide)⟩
